import Mathlib

/-!
Shallow embedding of the round-robin load balancer (`src/main.go`): the
backend pool with its liveness flags and atomic rotation cursor, the
peer-selection scan, the status-marking scan, and the request handler
`lb` together with the per-backend proxy error handler.  Machine integers
are modelled as `Nat` reduced modulo `2 ^ 64` where the Go code uses
`uint64`; Go's runtime fault on a modulus by zero (empty backend slice)
is modelled by an `Option` result.  Locks (`sync.RWMutex`) and the
atomicity of `sync/atomic` operations are concurrency devices with no
sequential content; each operation is embedded as a pure state
transition.
-/

namespace LoadBalancer

/-- One backend server: its address (the normalized string that Go's
`URL.String()` yields) and its mutable liveness flag.  The Go struct's
`mux` lock protects `Alive` and its `ReverseProxy` is the external
forwarding capability; neither carries sequential state. -/
structure Backend where
  url : String
  alive : Bool
deriving DecidableEq, Repr, Inhabited

/-- The server pool: the ordered backend slice and the shared `uint64`
round-robin cursor (`current`), kept reduced modulo `2 ^ 64`. -/
structure ServerPool where
  backends : List Backend
  current : Nat
deriving DecidableEq, Repr

/-- The range of Go's `uint64`. -/
def U64 : Nat := 2 ^ 64

/-- `Backend.SetAlive`: write the liveness flag (the lock has no
sequential content). -/
def Backend.SetAlive (b : Backend) (alive : Bool) : Backend :=
  { b with alive := alive }

/-- `Backend.IsAlive`: read the liveness flag. -/
def Backend.IsAlive (b : Backend) : Bool :=
  b.alive

/-- `ServerPool.NextIndex`: `int(atomic.AddUint64(&s.current, 1) %
uint64(len(s.backends)))`.  The atomic add wraps at `2 ^ 64`; `none`
models the Go runtime fault of `% 0` when the pool is empty. -/
def ServerPool.NextIndex (s : ServerPool) : Option (Nat × ServerPool) :=
  if s.backends.length = 0 then none
  else
    let cur := (s.current + 1) % U64
    some (cur % s.backends.length, { s with current := cur })

/-- The `for i := nextIdx; i < l; i++` scan body of `GetNextPeer`:
`fuel` is the number of remaining iterations (`l - i`), and the result
is the pair of the loop counter `i` and `idx := i % len` at the first
alive backend found. -/
def scanBackends (bs : List Backend) : Nat → Nat → Option (Nat × Nat)
  | _, 0 => none
  | i, fuel + 1 =>
    if (bs.getD (i % bs.length) default).IsAlive then
      some (i, i % bs.length)
    else
      scanBackends bs (i + 1) fuel

/-- `ServerPool.GetNextPeer`: starting from `NextIndex`, scan once
around the pool for the first alive backend; when that backend was not
the first candidate, store its index into the shared cursor.  `none`
models the runtime fault on an empty pool (inside `NextIndex`). -/
def ServerPool.GetNextPeer (s : ServerPool) : Option (Option Backend × ServerPool) :=
  match s.NextIndex with
  | none => none
  | some (nextIdx, s1) =>
    match scanBackends s1.backends nextIdx s1.backends.length with
    | some (i, idx) =>
      let s2 := if i ≠ nextIdx then { s1 with current := idx } else s1
      some (some (s1.backends.getD idx default), s2)
    | none => some (none, s1)

/-- The loop body of `MarkBackendStatus`: find the first backend whose
`URL.String()` equals the given one, set its liveness, and `break`. -/
def markBackends (bs : List Backend) (url : String) (alive : Bool) : List Backend :=
  match bs with
  | [] => []
  | b :: rest =>
    if b.url = url then b.SetAlive alive :: rest
    else b :: markBackends rest url alive

/-- `ServerPool.MarkBackendStatus`: set the liveness of the first
backend matching the given URL string. -/
def ServerPool.MarkBackendStatus (s : ServerPool) (backendUrl : String) (alive : Bool) : ServerPool :=
  { s with backends := markBackends s.backends backendUrl alive }

/-- The request-scoped context values: what is stored under the two
`context.WithValue` keys `Attempts` (= 0) and `Retry` (= 1); `none`
means the key is absent, in which case the type assertion `.(int)`
fails and the reader falls back to 0. -/
structure ReqCtx where
  attemptsVal : Option Int
  retryVal : Option Int
deriving DecidableEq, Repr

/-- `GetAttemptsFromContext`: reads `r.Context().Value(Retry)` — note
that it reads the `Retry` key — and returns 0 when the key is absent. -/
def GetAttemptsFromContext (ctx : ReqCtx) : Int :=
  ctx.retryVal.getD 0

/-- What one invocation of the handler `lb` does with a request:
a 503 at the attempt-ceiling check (before touching the pool), a
dispatch of the request to the selected peer, or a 503 because no
peer is available. -/
inductive LbResult where
  | exhausted
  | dispatched (peer : Backend)
  | noPeer
deriving DecidableEq, Repr

/-- `lb`: check the value `GetAttemptsFromContext` returns against the
ceiling 3, then select a peer and dispatch, or answer 503.  `none`
models the runtime fault of `GetNextPeer` on an empty pool. -/
def lb (s : ServerPool) (ctx : ReqCtx) : Option (LbResult × ServerPool) :=
  let attempts := GetAttemptsFromContext ctx
  if attempts > 3 then some (.exhausted, s)
  else
    match s.GetNextPeer with
    | none => none
    | some (some peer, s1) => some (.dispatched peer, s1)
    | some (none, s1) => some (.noPeer, s1)

/-- What one invocation of the per-backend `proxy.ErrorHandler` does:
either sleep and re-dispatch the same request to the same backend with
an incremented `Retry` value, or mark the backend dead, overwrite the
`Attempts` value, and re-enter `lb` (whose outcome is carried along). -/
inductive ErrorStep where
  | retrySame (delayMs : Nat) (newCtx : ReqCtx)
  | failover (pool : ServerPool) (newCtx : ReqCtx) (reentry : Option (LbResult × ServerPool))
deriving DecidableEq, Repr

/-- `proxy.ErrorHandler` for the backend at `serverUrl`, acting on the
global pool `s` and the request context `ctx`. -/
def errorHandler (serverUrl : String) (s : ServerPool) (ctx : ReqCtx) : ErrorStep :=
  let retries := GetAttemptsFromContext ctx
  if retries < 3 then
    .retrySame 10 { ctx with retryVal := some (retries + 1) }
  else
    let s1 := s.MarkBackendStatus serverUrl false
    let attempts := GetAttemptsFromContext ctx
    let ctx1 := { ctx with attemptsVal := some (attempts + 1) }
    .failover s1 ctx1 (lb s1 ctx1)

/-- The pool state after `t` successive `GetNextPeer` calls (`none`
once a call faults on an empty pool). -/
def iterPool (s : ServerPool) : Nat → Option ServerPool
  | 0 => some s
  | t + 1 =>
    match iterPool s t with
    | some st => st.GetNextPeer.map Prod.snd
    | none => none

/-- The peer returned by the `t`-th (0-indexed) successive
`GetNextPeer` call. -/
def callAt (s : ServerPool) (t : Nat) : Option (Option Backend) :=
  (iterPool s t).bind fun st => st.GetNextPeer.map Prod.fst

/-- Liveness of the backend at index `i` (out-of-range reads give the
dead default; every use keeps `i` in range). -/
def aliveAt (bs : List Backend) (i : Nat) : Bool :=
  (bs.getD i default).IsAlive

/-- The index `GetNextPeer`'s scan starts from: the value `NextIndex`
returns. -/
def startIdx (s : ServerPool) : Nat :=
  ((s.current + 1) % U64) % s.backends.length

/-- An in-range positional read of the backend list is one of its
members. -/
lemma getD_mem (bs : List Backend) : ∀ j, j < bs.length → bs.getD j default ∈ bs := by
  induction bs with
  | nil => intro j hj; simp at hj
  | cons b rest ih =>
    intro j hj
    cases j with
    | zero =>
      have h0 : (b :: rest).getD 0 default = b := rfl
      rw [h0]
      exact List.mem_cons_self b rest
    | succ j =>
      have hs : (b :: rest).getD (j + 1) default = rest.getD j default := rfl
      rw [hs]
      exact List.mem_cons_of_mem b (ih j (Nat.lt_of_succ_lt_succ (by simpa using hj)))

/-- When every backend is alive, every in-range position reads alive. -/
lemma aliveAt_of_all {bs : List Backend} (hall : ∀ b ∈ bs, b.IsAlive = true)
    {j : Nat} (hj : j < bs.length) : aliveAt bs j = true :=
  hall _ (getD_mem bs j hj)

/-- When every backend is dead, every in-range position reads dead. -/
lemma aliveAt_of_none {bs : List Backend} (hdead : ∀ b ∈ bs, b.IsAlive = false)
    {j : Nat} (hj : j < bs.length) : aliveAt bs j = false :=
  hdead _ (getD_mem bs j hj)

/-- Full characterization of the `GetNextPeer` scan loop: either no
offset within the fuel is alive and the scan fails, or it stops at the
least alive offset `k`, returning the loop counter `i + k` and the
index `(i + k) % len`. -/
lemma scanBackends_spec (bs : List Backend) :
    ∀ fuel i,
      (scanBackends bs i fuel = none ∧
        ∀ k, k < fuel → aliveAt bs ((i + k) % bs.length) = false)
      ∨ (∃ k, k < fuel ∧
          scanBackends bs i fuel = some (i + k, (i + k) % bs.length) ∧
          aliveAt bs ((i + k) % bs.length) = true ∧
          ∀ j, j < k → aliveAt bs ((i + j) % bs.length) = false) := by
  intro fuel
  induction fuel with
  | zero =>
    intro i
    exact Or.inl ⟨rfl, fun k hk => absurd hk (Nat.not_lt_zero k)⟩
  | succ fuel ih =>
    intro i
    by_cases h : aliveAt bs (i % bs.length) = true
    · right
      refine ⟨0, Nat.succ_pos fuel, ?_, ?_, ?_⟩
      · have hu : scanBackends bs i (fuel + 1) = some (i, i % bs.length) := by
          simp only [scanBackends]
          rw [if_pos (by simpa [aliveAt] using h)]
        simpa using hu
      · simpa using h
      · intro j hj; exact absurd hj (Nat.not_lt_zero j)
    · have hfalse : aliveAt bs (i % bs.length) = false := by
        simpa using h
      have hstep : scanBackends bs i (fuel + 1) = scanBackends bs (i + 1) fuel := by
        simp only [scanBackends]
        rw [if_neg (by simpa [aliveAt] using h)]
      rcases ih (i + 1) with ⟨hnone, hall⟩ | ⟨k, hk, hscan, halive, hmin⟩
      · left
        refine ⟨by rw [hstep]; exact hnone, ?_⟩
        intro k hk
        cases k with
        | zero => simpa using hfalse
        | succ k =>
          have harg : i + (k + 1) = (i + 1) + k := by omega
          rw [harg]
          exact hall k (by omega)
      · right
        refine ⟨k + 1, by omega, ?_, ?_, ?_⟩
        · have harg : i + (k + 1) = (i + 1) + k := by omega
          rw [hstep, harg]
          exact hscan
        · have harg : i + (k + 1) = (i + 1) + k := by omega
          rw [harg]
          exact halive
        · intro j hj
          cases j with
          | zero => simpa using hfalse
          | succ j =>
            have harg : i + (j + 1) = (i + 1) + j := by omega
            rw [harg]
            exact hmin j (by omega)

/-- Two least positions of the same predicate coincide. -/
lemma least_unique {P : Nat → Prop} {k m : Nat}
    (hk : P k) (hkmin : ∀ j, j < k → ¬ P j)
    (hm : P m) (hmmin : ∀ j, j < m → ¬ P j) : k = m := by
  rcases Nat.lt_trichotomy k m with h | h | h
  · exact absurd hk (hmmin k h)
  · exact h
  · exact absurd hm (hkmin m h)

/-- Every in-range index is reached by some scan offset `k < n` from
any in-range start position. -/
lemma offsets_cover {n start : Nat} (hstart : start < n) (j : Nat) (hj : j < n) :
    ∃ k, k < n ∧ (start + k) % n = j := by
  have hn : 0 < n := Nat.lt_of_le_of_lt (Nat.zero_le start) hstart
  refine ⟨(n + j - start) % n, Nat.mod_lt _ hn, ?_⟩
  have hmod : (start + (n + j - start) % n) % n = (start + (n + j - start)) % n :=
    (Nat.ModEq.add_left start (Nat.mod_modEq (n + j - start) n))
  rw [hmod]
  have hsum : start + (n + j - start) = n + j := by omega
  rw [hsum, Nat.add_mod_left]
  exact Nat.mod_eq_of_lt hj

/-- `NextIndex` on a non-empty pool: wrap the cursor at `2 ^ 64` and
reduce modulo the pool size. -/
lemma NextIndex_eq (s : ServerPool) (hne : s.backends.length ≠ 0) :
    s.NextIndex = some (startIdx s, ⟨s.backends, (s.current + 1) % U64⟩) := by
  simp only [ServerPool.NextIndex, startIdx]
  rw [if_neg hne]

/-- The scan start position is in range on a non-empty pool. -/
lemma startIdx_lt (s : ServerPool) (hne : s.backends.length ≠ 0) :
    startIdx s < s.backends.length :=
  Nat.mod_lt _ (Nat.pos_of_ne_zero hne)

/-- Full characterization of `GetNextPeer` on a non-empty pool: either
every position in the cyclic scan is dead and the call returns no peer
with the cursor merely incremented, or the scan stops at the least
alive offset `k`, the call returns that backend, and the cursor is the
incremented value for `k = 0` and the found index for `k > 0`. -/
lemma GetNextPeer_spec (s : ServerPool) (hne : s.backends.length ≠ 0) :
    ((∀ k, k < s.backends.length →
        aliveAt s.backends ((startIdx s + k) % s.backends.length) = false) ∧
      s.GetNextPeer = some (none, ⟨s.backends, (s.current + 1) % U64⟩))
    ∨ (∃ k, k < s.backends.length ∧
        aliveAt s.backends ((startIdx s + k) % s.backends.length) = true ∧
        (∀ j, j < k →
          aliveAt s.backends ((startIdx s + j) % s.backends.length) = false) ∧
        s.GetNextPeer = some
          (some (s.backends.getD ((startIdx s + k) % s.backends.length) default),
            ⟨s.backends,
              if k = 0 then (s.current + 1) % U64
              else (startIdx s + k) % s.backends.length⟩)) := by
  have hnext := NextIndex_eq s hne
  rcases scanBackends_spec s.backends s.backends.length (startIdx s) with
    ⟨hnone, hall⟩ | ⟨k, hk, hscan, halive, hmin⟩
  · left
    refine ⟨hall, ?_⟩
    simp only [ServerPool.GetNextPeer, hnext]
    simp only [hnone]
  · right
    refine ⟨k, hk, halive, hmin, ?_⟩
    simp only [ServerPool.GetNextPeer, hnext]
    simp only [hscan]
    by_cases hk0 : k = 0
    · subst hk0
      have heq : startIdx s + 0 = startIdx s := by omega
      have hmodeq : (startIdx s + 0) % s.backends.length = startIdx s := by
        rw [heq]; exact Nat.mod_eq_of_lt (startIdx_lt s hne)
      rw [if_neg (by simp [heq])]
      simp [hmodeq]
    · rw [if_pos (by
        intro hcontra
        exact hk0 (by omega)), if_neg hk0]

/-- A non-empty backend list has non-zero length. -/
lemma length_ne_zero {s : ServerPool} (hne : s.backends ≠ []) :
    s.backends.length ≠ 0 :=
  fun h => hne (List.length_eq_zero.mp h)

/-- C7: on every pool of `N ≥ 1` backends, `NextIndex` increments the
shared cursor by one (wrapping modulo `2 ^ 64`) and returns the new
cursor value reduced modulo `N`, which is always a valid index below
`N` — in particular also right after the cursor wraps around. -/
theorem nextIndex_mod (s : ServerPool) (hne : s.backends ≠ []) :
    ∃ r s1, s.NextIndex = some (r, s1) ∧
      s1.current = (s.current + 1) % U64 ∧
      s1.backends = s.backends ∧
      r = s1.current % s.backends.length ∧
      r < s.backends.length :=
  ⟨startIdx s, ⟨s.backends, (s.current + 1) % U64⟩,
    NextIndex_eq s (length_ne_zero hne), rfl, rfl, rfl,
    startIdx_lt s (length_ne_zero hne)⟩

/-- Witness for C7 at a pool whose cursor sits at `2 ^ 64 - 1`: the
increment wraps to 0 and the returned index is still in range. -/
theorem nextIndex_mod_witness :
    ((⟨[⟨ "A", true⟩], U64 - 1⟩ : ServerPool).backends ≠ []) ∧
    ∃ r s1, (⟨[⟨ "A", true⟩], U64 - 1⟩ : ServerPool).NextIndex = some (r, s1) ∧
      s1.current = 0 ∧ r = 0 := by
  refine ⟨by decide, ?_⟩
  obtain ⟨r, s1, h1, h2, h3, h4, h5⟩ :=
    nextIndex_mod ⟨[⟨ "A", true⟩], U64 - 1⟩ (by decide)
  have hc : s1.current = 0 := by
    rw [h2]; decide
  refine ⟨r, s1, h1, hc, ?_⟩
  rw [h4, hc]
  decide

/-- C10: `NextIndex` and `GetNextPeer` fault (modulus by zero) exactly
on the empty pool; on every pool with at least one backend both are
total, and `NextIndex` returns an in-range index. -/
theorem pool_empty_guard (s : ServerPool) :
    (s.backends = [] → s.NextIndex = none ∧ s.GetNextPeer = none) ∧
    (s.backends ≠ [] →
      (∃ r s1, s.NextIndex = some (r, s1) ∧ r < s.backends.length) ∧
      ∃ res s2, s.GetNextPeer = some (res, s2)) := by
  constructor
  · intro h
    have hlen : s.backends.length = 0 := by rw [h]; rfl
    have hni : s.NextIndex = none := by simp [ServerPool.NextIndex, hlen]
    exact ⟨hni, by simp [ServerPool.GetNextPeer, hni]⟩
  · intro hne
    refine ⟨⟨startIdx s, _, NextIndex_eq s (length_ne_zero hne),
      startIdx_lt s (length_ne_zero hne)⟩, ?_⟩
    rcases GetNextPeer_spec s (length_ne_zero hne) with ⟨_, h⟩ | ⟨k, _, _, _, h⟩
    · exact ⟨none, _, h⟩
    · exact ⟨_, _, h⟩

/-- Witness for C10: the empty pool faults on both operations, and a
one-backend pool is served totally. -/
theorem pool_empty_guard_witness :
    (ServerPool.NextIndex ⟨[], 0⟩ = none ∧ ServerPool.GetNextPeer ⟨[], 0⟩ = none) ∧
    ∃ r s1, ServerPool.NextIndex ⟨[⟨ "A", true⟩], 0⟩ = some (r, s1) ∧
      r < (⟨[⟨ "A", true⟩], 0⟩ : ServerPool).backends.length := by
  refine ⟨(pool_empty_guard ⟨[], 0⟩).1 rfl, ?_⟩
  exact ((pool_empty_guard ⟨[⟨ "A", true⟩], 0⟩).2 (by decide)).1

/-- C3: on every non-empty pool, `GetNextPeer` returns the first alive
backend of the cyclic scan that starts at the index `NextIndex`
produced (the least scan offset whose backend is alive), returns no
peer exactly when the whole scan finds none alive — in particular it
returns no peer when every backend is dead, and when exactly one
backend is alive it returns that backend whatever the cursor was. -/
theorem getNextPeer_first_alive (s : ServerPool) (hne : s.backends ≠ []) :
    ∃ res s1, s.GetNextPeer = some (res, s1) ∧
      ((∃ k, k < s.backends.length ∧
          (∀ j, j < k →
            aliveAt s.backends ((startIdx s + j) % s.backends.length) = false) ∧
          aliveAt s.backends ((startIdx s + k) % s.backends.length) = true ∧
          res = some (s.backends.getD ((startIdx s + k) % s.backends.length) default))
        ∨ ((∀ k, k < s.backends.length →
            aliveAt s.backends ((startIdx s + k) % s.backends.length) = false) ∧
          res = none)) ∧
      ((∀ b ∈ s.backends, b.IsAlive = false) → res = none) ∧
      (∀ i, i < s.backends.length → aliveAt s.backends i = true →
        (∀ j, j < s.backends.length → j ≠ i → aliveAt s.backends j = false) →
        res = some (s.backends.getD i default)) := by
  have hne' := length_ne_zero hne
  rcases GetNextPeer_spec s hne' with ⟨hdead, heq⟩ | ⟨k, hk, halive, hmin, heq⟩
  · refine ⟨none, _, heq, Or.inr ⟨hdead, rfl⟩, fun _ => rfl, ?_⟩
    intro i hi hAi _
    exfalso
    obtain ⟨k, hk, hik⟩ := offsets_cover (startIdx_lt s hne') i hi
    have hfalse := hdead k hk
    rw [hik, hAi] at hfalse
    exact Bool.noConfusion hfalse
  · refine ⟨_, _, heq, Or.inl ⟨k, hk, hmin, halive, rfl⟩, ?_, ?_⟩
    · intro hdead
      exfalso
      have hlt : (startIdx s + k) % s.backends.length < s.backends.length :=
        Nat.mod_lt _ (Nat.pos_of_ne_zero hne')
      have hfalse := aliveAt_of_none hdead hlt
      rw [halive] at hfalse
      exact Bool.noConfusion hfalse
    · intro i hi hAi huniq
      have hlt : (startIdx s + k) % s.backends.length < s.backends.length :=
        Nat.mod_lt _ (Nat.pos_of_ne_zero hne')
      by_cases heqi : (startIdx s + k) % s.backends.length = i
      · rw [heqi]
      · exfalso
        have hfalse := huniq _ hlt heqi
        rw [halive] at hfalse
        exact Bool.noConfusion hfalse

/-- Witness for C3 at the pool `[A dead, B alive, C dead]` with cursor
0: `GetNextPeer` succeeds (and, by the theorem, yields the single alive
backend B). -/
theorem getNextPeer_first_alive_witness :
    ((⟨[⟨ "A", false⟩, ⟨ "B", true⟩, ⟨ "C", false⟩], 0⟩ : ServerPool).backends ≠ []) ∧
    ∃ res s1,
      (⟨[⟨ "A", false⟩, ⟨ "B", true⟩, ⟨ "C", false⟩], 0⟩ : ServerPool).GetNextPeer =
        some (res, s1) ∧ res = some ⟨ "B", true⟩ := by
  refine ⟨by decide, ?_⟩
  obtain ⟨res, s1, h1, -, -, h4⟩ :=
    getNextPeer_first_alive ⟨[⟨ "A", false⟩, ⟨ "B", true⟩, ⟨ "C", false⟩], 0⟩ (by decide)
  exact ⟨res, s1, h1, h4 1 (by decide) (by decide) (by decide)⟩

/-- C6: on every non-empty pool, `GetNextPeer` never changes the
backend records; when the first candidate examined (scan offset 0) is
alive the only state change is `NextIndex`'s increment of the cursor,
and when the first alive backend sits at a scan offset `k > 0` the
cursor is instead set to that backend's index itself (not index + 1);
when nothing is alive only the increment remains. -/
theorem getNextPeer_cursor_effect (s : ServerPool) (hne : s.backends ≠ []) :
    ∃ res s1, s.GetNextPeer = some (res, s1) ∧
      s1.backends = s.backends ∧
      (aliveAt s.backends (startIdx s) = true →
        res = some (s.backends.getD (startIdx s) default) ∧
        s1.current = (s.current + 1) % U64) ∧
      (∀ k, 0 < k → k < s.backends.length →
        aliveAt s.backends ((startIdx s + k) % s.backends.length) = true →
        (∀ j, j < k →
          aliveAt s.backends ((startIdx s + j) % s.backends.length) = false) →
        res = some (s.backends.getD ((startIdx s + k) % s.backends.length) default) ∧
        s1.current = (startIdx s + k) % s.backends.length) ∧
      ((∀ k, k < s.backends.length →
          aliveAt s.backends ((startIdx s + k) % s.backends.length) = false) →
        res = none ∧ s1.current = (s.current + 1) % U64) := by
  have hne' := length_ne_zero hne
  have hs0 : (startIdx s + 0) % s.backends.length = startIdx s := by
    rw [Nat.add_zero]
    exact Nat.mod_eq_of_lt (startIdx_lt s hne')
  rcases GetNextPeer_spec s hne' with ⟨hdead, heq⟩ | ⟨k, hk, halive, hmin, heq⟩
  · refine ⟨none, _, heq, rfl, ?_, ?_, fun _ => ⟨rfl, rfl⟩⟩
    · intro hAs
      exfalso
      have hfalse := hdead 0 (Nat.pos_of_ne_zero hne')
      rw [hs0, hAs] at hfalse
      exact Bool.noConfusion hfalse
    · intro j hj0 hjlt hAj _
      exfalso
      have hfalse := hdead j hjlt
      rw [hAj] at hfalse
      exact Bool.noConfusion hfalse
  · refine ⟨_, _, heq, rfl, ?_, ?_, ?_⟩
    · intro hAs
      have hk0 : k = 0 := by
        by_contra hk0
        have hfalse := hmin 0 (Nat.pos_of_ne_zero hk0)
        rw [hs0, hAs] at hfalse
        exact Bool.noConfusion hfalse
      subst hk0
      rw [hs0]
      exact ⟨rfl, by rw [if_pos rfl]⟩
    · intro j hj0 hjlt hAj hjmin
      have hkj : k = j :=
        least_unique (P := fun m =>
            aliveAt s.backends ((startIdx s + m) % s.backends.length) = true)
          halive (fun m hm => by simp [hmin m hm]) hAj (fun m hm => by simp [hjmin m hm])
      subst hkj
      have hkne : k ≠ 0 := by omega
      exact ⟨rfl, by rw [if_neg hkne]⟩
    · intro hdead
      exfalso
      have hfalse := hdead k hk
      rw [halive] at hfalse
      exact Bool.noConfusion hfalse

/-- Witness for C6 at the pool `[A alive, B dead]` with cursor 0: the
scan starts at the dead backend B (index 1), finds A at offset 1, and
fast-forwards the cursor to A's index 0. -/
theorem getNextPeer_cursor_effect_witness :
    ((⟨[⟨ "A", true⟩, ⟨ "B", false⟩], 0⟩ : ServerPool).backends ≠ []) ∧
    ∃ res s1,
      (⟨[⟨ "A", true⟩, ⟨ "B", false⟩], 0⟩ : ServerPool).GetNextPeer = some (res, s1) ∧
      res = some ⟨ "A", true⟩ ∧ s1.current = 0 := by
  refine ⟨by decide, ?_⟩
  obtain ⟨res, s1, h1, -, -, h4, -⟩ :=
    getNextPeer_cursor_effect ⟨[⟨ "A", true⟩, ⟨ "B", false⟩], 0⟩ (by decide)
  obtain ⟨hres, hcur⟩ := h4 1 (by decide) (by decide) (by decide) (by decide)
  refine ⟨res, s1, h1, ?_, ?_⟩
  · rw [hres]; decide
  · rw [hcur]; decide

/-- One `GetNextPeer` call on an all-alive pool whose cursor increment
does not wrap: the backend at the incremented cursor's rotation
position is returned and the cursor is exactly incremented. -/
lemma GetNextPeer_allAlive (s : ServerPool) (hne : s.backends.length ≠ 0)
    (hall : ∀ b ∈ s.backends, b.IsAlive = true) (hc : s.current + 1 < U64) :
    s.GetNextPeer = some
      (some (s.backends.getD ((s.current + 1) % s.backends.length) default),
        ⟨s.backends, s.current + 1⟩) := by
  have hcur : (s.current + 1) % U64 = s.current + 1 := Nat.mod_eq_of_lt hc
  have hstart : startIdx s = (s.current + 1) % s.backends.length := by
    rw [startIdx, hcur]
  rcases GetNextPeer_spec s hne with ⟨hdead, heq⟩ | ⟨k, hk, halive, hmin, heq⟩
  · exfalso
    have hlt : (startIdx s + 0) % s.backends.length < s.backends.length :=
      Nat.mod_lt _ (Nat.pos_of_ne_zero hne)
    have hfalse := hdead 0 (Nat.pos_of_ne_zero hne)
    rw [aliveAt_of_all hall hlt] at hfalse
    exact Bool.noConfusion hfalse
  · have hk0 : k = 0 := by
      by_contra hk0
      have hlt : (startIdx s + 0) % s.backends.length < s.backends.length :=
        Nat.mod_lt _ (Nat.pos_of_ne_zero hne)
      have hfalse := hmin 0 (Nat.pos_of_ne_zero hk0)
      rw [aliveAt_of_all hall hlt] at hfalse
      exact Bool.noConfusion hfalse
    subst hk0
    rw [heq]
    have hs0 : (startIdx s + 0) % s.backends.length = startIdx s := by
      rw [Nat.add_zero]
      exact Nat.mod_eq_of_lt (startIdx_lt s hne)
    rw [if_pos rfl, hs0, hstart, hcur]

/-- After `t` `GetNextPeer` calls on an all-alive pool, with no cursor
wraparound in the window, the backends are untouched and the cursor has
advanced by exactly `t`. -/
lemma iterPool_allAlive (s : ServerPool) (hne : s.backends.length ≠ 0)
    (hall : ∀ b ∈ s.backends, b.IsAlive = true) :
    ∀ t, s.current + t < U64 → iterPool s t = some ⟨s.backends, s.current + t⟩ := by
  intro t
  induction t with
  | zero =>
    intro _
    simp [iterPool]
  | succ t ih =>
    intro hlt
    have hstep := ih (by omega)
    simp only [iterPool, hstep]
    rw [GetNextPeer_allAlive ⟨s.backends, s.current + t⟩ hne hall
      (by show s.current + t + 1 < U64; omega)]
    simp
    omega

/-- The `t`-th successive selection on an all-alive pool, with no
cursor wraparound in the window, yields the backend at rotation
position `(current + 1 + t) mod N`. -/
lemma callAt_allAlive (s : ServerPool) (hne : s.backends.length ≠ 0)
    (hall : ∀ b ∈ s.backends, b.IsAlive = true) (t : Nat)
    (hwrap : s.current + t + 1 < U64) :
    callAt s t = some
      (some (s.backends.getD ((s.current + 1 + t) % s.backends.length) default)) := by
  have hiter := iterPool_allAlive s hne hall t (by omega)
  simp only [callAt, hiter, Option.some_bind]
  rw [GetNextPeer_allAlive ⟨s.backends, s.current + t⟩ hne hall
    (by show s.current + t + 1 < U64; omega)]
  have harg : s.current + t + 1 = s.current + 1 + t := by omega
  simp [harg]

/-- C5 (amended): on an all-alive pool of `N ≥ 1` backends with no
status changes, as long as the 64-bit cursor does not wrap around
within the window of calls, the `t`-th successive selection returns the
backend at rotation position `(current + 1 + t) mod N`, so the
sequence cycles through all `N` backends in order with period `N`; at a
cursor wraparound (`2 ^ 64` calls in) the rotation position jumps and
the period is broken when `N` does not divide `2 ^ 64`. -/
theorem roundRobin_cycle (s : ServerPool) (hne : s.backends ≠ [])
    (hall : ∀ b ∈ s.backends, b.IsAlive = true) (t : Nat)
    (hwrap : s.current + t + 1 < U64) :
    callAt s t = some
      (some (s.backends.getD ((s.current + 1 + t) % s.backends.length) default)) ∧
    (s.current + (t + s.backends.length) + 1 < U64 →
      callAt s (t + s.backends.length) = callAt s t) := by
  have hne' := length_ne_zero hne
  refine ⟨callAt_allAlive s hne' hall t hwrap, ?_⟩
  intro hw2
  rw [callAt_allAlive s hne' hall (t + s.backends.length) hw2,
    callAt_allAlive s hne' hall t hwrap]
  have harg : s.current + 1 + (t + s.backends.length)
      = s.current + 1 + t + s.backends.length := by omega
  rw [harg, Nat.add_mod_right]

/-- Witness for C5 (amended), the concrete scenario: 3 alive backends
`[A, B, C]` with the cursor starting at 0; the first four calls return
B, C, A, B. -/
theorem roundRobin_cycle_witness :
    callAt ⟨[⟨ "A", true⟩, ⟨ "B", true⟩, ⟨ "C", true⟩], 0⟩ 0 = some (some ⟨ "B", true⟩) ∧
    callAt ⟨[⟨ "A", true⟩, ⟨ "B", true⟩, ⟨ "C", true⟩], 0⟩ 1 = some (some ⟨ "C", true⟩) ∧
    callAt ⟨[⟨ "A", true⟩, ⟨ "B", true⟩, ⟨ "C", true⟩], 0⟩ 2 = some (some ⟨ "A", true⟩) ∧
    callAt ⟨[⟨ "A", true⟩, ⟨ "B", true⟩, ⟨ "C", true⟩], 0⟩ 3 = some (some ⟨ "B", true⟩) := by
  have h0 := (roundRobin_cycle ⟨[⟨ "A", true⟩, ⟨ "B", true⟩, ⟨ "C", true⟩], 0⟩
    (by decide) (by decide) 0 (by decide)).1
  have h1 := (roundRobin_cycle ⟨[⟨ "A", true⟩, ⟨ "B", true⟩, ⟨ "C", true⟩], 0⟩
    (by decide) (by decide) 1 (by decide)).1
  have h2 := (roundRobin_cycle ⟨[⟨ "A", true⟩, ⟨ "B", true⟩, ⟨ "C", true⟩], 0⟩
    (by decide) (by decide) 2 (by decide)).1
  have h3 := (roundRobin_cycle ⟨[⟨ "A", true⟩, ⟨ "B", true⟩, ⟨ "C", true⟩], 0⟩
    (by decide) (by decide) 3 (by decide)).1
  exact ⟨h0, h1, h2, h3⟩

/-- Counterexample to C5 as stated: on the all-alive 3-backend pool
`[A, B, C]` whose cursor sits at `2 ^ 64 - 2`, the first and second
selections both return A (the wrapped cursor lands on index 0 twice in
a row, because `2 ^ 64 mod 3 = 1`), and the fourth call differs from
the first — the sequence neither visits all 3 backends in 3 consecutive
calls nor has period 3. -/
theorem roundRobin_cycle_cex :
    (∀ b ∈ ([⟨ "A", true⟩, ⟨ "B", true⟩, ⟨ "C", true⟩] : List Backend), b.IsAlive = true) ∧
    callAt ⟨[⟨ "A", true⟩, ⟨ "B", true⟩, ⟨ "C", true⟩], U64 - 2⟩ 0 = some (some ⟨ "A", true⟩) ∧
    callAt ⟨[⟨ "A", true⟩, ⟨ "B", true⟩, ⟨ "C", true⟩], U64 - 2⟩ 1 = some (some ⟨ "A", true⟩) ∧
    callAt ⟨[⟨ "A", true⟩, ⟨ "B", true⟩, ⟨ "C", true⟩], U64 - 2⟩ 3 = some (some ⟨ "C", true⟩) := by
  refine ⟨by decide, ?_, ?_, ?_⟩ <;> decide

/-- C1 (the code at the claim's input): a request whose context records
4 under the `Attempts` key and 0 under the `Retry` key is not rejected.
`lb` reads the `Retry` key through `GetAttemptsFromContext`, obtains 0,
contacts the pool and dispatches to a backend — the cursor advances —
instead of answering 503 service-unavailable without touching the
pool. -/
theorem lb_ignores_attempts_key :
    (⟨some 4, some 0⟩ : ReqCtx).attemptsVal = some 4 ∧
    GetAttemptsFromContext ⟨some 4, some 0⟩ = 0 ∧
    lb ⟨[⟨ "A", true⟩], 0⟩ ⟨some 4, some 0⟩ =
      some (.dispatched ⟨ "A", true⟩, ⟨[⟨ "A", true⟩], 1⟩) := by
  refine ⟨rfl, rfl, ?_⟩
  decide

/-- C2 (amended): the same-backend retry transition leaves the
`Attempts` value untouched, and the failover transition — the request
moving to a different backend — leaves the `Retry` value unchanged
rather than resetting it to 0, while overwriting the `Attempts` value
with the `Retry` value plus one. -/
theorem errorHandler_ctx_update (u : String) (s : ServerPool) (ctx : ReqCtx) :
    (GetAttemptsFromContext ctx < 3 →
      errorHandler u s ctx =
        .retrySame 10 ⟨ctx.attemptsVal, some (GetAttemptsFromContext ctx + 1)⟩) ∧
    (¬ GetAttemptsFromContext ctx < 3 →
      ∃ reentry, errorHandler u s ctx =
        .failover (s.MarkBackendStatus u false)
          ⟨some (GetAttemptsFromContext ctx + 1), ctx.retryVal⟩ reentry) := by
  constructor
  · intro h
    simp only [errorHandler]
    rw [if_pos h]
  · intro h
    refine ⟨lb (s.MarkBackendStatus u false)
      ⟨some (GetAttemptsFromContext ctx + 1), ctx.retryVal⟩, ?_⟩
    simp only [errorHandler]
    rw [if_neg h]

/-- Witness for C2 (amended) at a request that exhausted its 3 retries:
the failover keeps the `Retry` value at 3 and writes 4 under the
`Attempts` key. -/
theorem errorHandler_ctx_update_witness :
    ¬ GetAttemptsFromContext ⟨none, some 3⟩ < 3 ∧
    ∃ reentry, errorHandler "X" ⟨[⟨ "X", true⟩], 5⟩ ⟨none, some 3⟩ =
      .failover ((⟨[⟨ "X", true⟩], 5⟩ : ServerPool).MarkBackendStatus "X" false)
        ⟨some 4, some 3⟩ reentry := by
  refine ⟨by decide, ?_⟩
  obtain ⟨r, hr⟩ :=
    (errorHandler_ctx_update "X" ⟨[⟨ "X", true⟩], 5⟩ ⟨none, some 3⟩).2 (by decide)
  refine ⟨r, ?_⟩
  rw [hr]
  norm_num [GetAttemptsFromContext]

/-- Counterexample to C2 as stated: a request carrying `Retry` value 3
(and `Attempts` value 1) fails over from backend A to backend B, and
the context it re-enters the router with still carries `Retry` value 3
— the retry count is not reset to 0 on moving to a different
backend. -/
theorem errorHandler_retry_not_reset_cex :
    errorHandler "A" ⟨[⟨ "A", true⟩, ⟨ "B", true⟩], 0⟩ ⟨some 1, some 3⟩ =
      .failover ⟨[⟨ "A", false⟩, ⟨ "B", true⟩], 0⟩ ⟨some 4, some 3⟩
        (some (.dispatched ⟨ "B", true⟩, ⟨[⟨ "A", false⟩, ⟨ "B", true⟩], 1⟩)) ∧
    (⟨some 4, some 3⟩ : ReqCtx).retryVal ≠ some 0 := by
  constructor <;> decide

/-- C4 (the code at the claim's input): with the request context
holding 2 under the `Attempts` key and 3 under the `Retry` key, the
failover branch does mark the backend dead and re-enter `lb`, but
writes 4 — the `Retry` value plus one — under the `Attempts` key,
instead of incrementing the attempt count from 2 to 3. -/
theorem errorHandler_overwrites_attempts :
    errorHandler "A" ⟨[⟨ "A", true⟩, ⟨ "B", true⟩], 0⟩ ⟨some 2, some 3⟩ =
      .failover ⟨[⟨ "A", false⟩, ⟨ "B", true⟩], 0⟩ ⟨some 4, some 3⟩
        (some (.dispatched ⟨ "B", true⟩, ⟨[⟨ "A", false⟩, ⟨ "B", true⟩], 1⟩)) ∧
    (⟨some 4, some 3⟩ : ReqCtx).attemptsVal ≠ some (2 + 1) := by
  constructor <;> decide

/-- `markBackends` keeps the list length. -/
lemma markBackends_length (bs : List Backend) (u : String) (a : Bool) :
    (markBackends bs u a).length = bs.length := by
  induction bs with
  | nil => rfl
  | cons b rest ih =>
    by_cases hb : b.url = u
    · simp [markBackends, hb]
    · simp [markBackends, hb, ih]

/-- `markBackends` never changes an address. -/
lemma markBackends_url (bs : List Backend) (u : String) (a : Bool) :
    ∀ j, ((markBackends bs u a).getD j default).url = (bs.getD j default).url := by
  induction bs with
  | nil => intro j; rfl
  | cons b rest ih =>
    intro j
    by_cases hb : b.url = u
    · simp only [markBackends, if_pos hb]
      cases j with
      | zero => rfl
      | succ j => rfl
    · simp only [markBackends, if_neg hb]
      cases j with
      | zero => rfl
      | succ j => exact ih j

/-- `markBackends` with no matching address is the identity. -/
lemma markBackends_nomatch (bs : List Backend) (u : String) (a : Bool)
    (h : ∀ b ∈ bs, b.url ≠ u) : markBackends bs u a = bs := by
  induction bs with
  | nil => rfl
  | cons b rest ih =>
    have hb : b.url ≠ u := h b (List.mem_cons_self b rest)
    simp only [markBackends, if_neg hb]
    rw [ih (fun x hx => h x (List.mem_cons_of_mem b hx))]

/-- `markBackends` flips exactly the first matching position. -/
lemma markBackends_first (bs : List Backend) (u : String) (a : Bool) :
    ∀ i, i < bs.length → (bs.getD i default).url = u →
      (∀ j, j < i → (bs.getD j default).url ≠ u) →
      (markBackends bs u a).getD i default = (bs.getD i default).SetAlive a ∧
      ∀ j, j ≠ i → (markBackends bs u a).getD j default = bs.getD j default := by
  induction bs with
  | nil => intro i hi; simp at hi
  | cons b rest ih =>
    intro i hi hmatch hmin
    by_cases hb : b.url = u
    · have hi0 : i = 0 := by
        by_contra h0
        exact hmin 0 (Nat.pos_of_ne_zero h0) hb
      subst hi0
      constructor
      · simp only [markBackends, if_pos hb]
        rfl
      · intro j hj
        simp only [markBackends, if_pos hb]
        cases j with
        | zero => exact absurd rfl hj
        | succ j => rfl
    · have hi0 : i ≠ 0 := by
        intro h0
        subst h0
        exact hb hmatch
      obtain ⟨i', rfl⟩ : ∃ i', i = i' + 1 := ⟨i - 1, by omega⟩
      have hlen : i' < rest.length := by
        have hcons : i' + 1 < rest.length + 1 := by simpa using hi
        omega
      have hm' : (rest.getD i' default).url = u := hmatch
      have hmin' : ∀ j, j < i' → (rest.getD j default).url ≠ u :=
        fun j hj => hmin (j + 1) (by omega)
      obtain ⟨h1, h2⟩ := ih i' hlen hm' hmin'
      constructor
      · simp only [markBackends, if_neg hb]
        exact h1
      · intro j hj
        simp only [markBackends, if_neg hb]
        cases j with
        | zero => rfl
        | succ j => exact h2 j (fun h => hj (by rw [h]))

/-- C8: `MarkBackendStatus` scans the pool in order for the first
backend whose normalized URL string matches, flips exactly that
backend's liveness and stops: the cursor, the list length, every
address, and the full record of every other position — later
duplicates of the same address included — are unchanged; when nothing
matches the pool is unchanged. -/
theorem markBackendStatus_first_match (s : ServerPool) (u : String) (a : Bool) :
    (s.MarkBackendStatus u a).current = s.current ∧
    (s.MarkBackendStatus u a).backends.length = s.backends.length ∧
    (∀ j, (((s.MarkBackendStatus u a).backends.getD j default).url) =
      ((s.backends.getD j default).url)) ∧
    ((∀ b ∈ s.backends, b.url ≠ u) →
      (s.MarkBackendStatus u a).backends = s.backends) ∧
    (∀ i, i < s.backends.length → (s.backends.getD i default).url = u →
      (∀ j, j < i → (s.backends.getD j default).url ≠ u) →
      (s.MarkBackendStatus u a).backends.getD i default =
        (s.backends.getD i default).SetAlive a ∧
      ∀ j, j ≠ i →
        (s.MarkBackendStatus u a).backends.getD j default =
          s.backends.getD j default) :=
  ⟨rfl, markBackends_length s.backends u a, markBackends_url s.backends u a,
    markBackends_nomatch s.backends u a, markBackends_first s.backends u a⟩

/-- Witness for C8 at a pool with a duplicated address `[X, Y, X]`:
marking X dead flips only the first X; the duplicate at index 2 keeps
its liveness. -/
theorem markBackendStatus_first_match_witness :
    ((⟨[⟨ "X", true⟩, ⟨ "Y", true⟩, ⟨ "X", true⟩], 0⟩ : ServerPool).MarkBackendStatus
        "X" false).backends.getD 0 default =
      (([⟨ "X", true⟩, ⟨ "Y", true⟩, ⟨ "X", true⟩] : List Backend).getD 0 default).SetAlive false ∧
    ((⟨[⟨ "X", true⟩, ⟨ "Y", true⟩, ⟨ "X", true⟩], 0⟩ : ServerPool).MarkBackendStatus
        "X" false).backends.getD 2 default =
      ([⟨ "X", true⟩, ⟨ "Y", true⟩, ⟨ "X", true⟩] : List Backend).getD 2 default := by
  have h := (markBackendStatus_first_match
    ⟨[⟨ "X", true⟩, ⟨ "Y", true⟩, ⟨ "X", true⟩], 0⟩ "X" false).2.2.2.2
    0 (by decide) rfl (fun j hj => absurd hj (Nat.not_lt_zero j))
  exact ⟨h.1, h.2 2 (by decide)⟩

end LoadBalancer
